import Mathlib

/-!
Verification development for the fastserve in-memory file server
(src/main.go).  The Go program keeps a cache mapping root-relative
paths to file contents plus modification times, reconciles it against
the filesystem with an incremental scan (`loadFiles`), rate-limits
requests per caller address (`rateLimit`) and serves cached bytes
(`handleRequest`).

Shallow embedding choices:
* `fileCache` mirrors the Go struct of the same name: `content` is the
  byte slice (bytes as `Nat`), `modTime` the timestamp (`time.Time`
  modelled as an `Int` instant; `Equal` becomes `=`).
* The cache map `map[string]*fileCache` is modelled as a partial
  function `String → Option fileCache`; map assignment and `delete`
  become pointwise updates.
* A run of `filepath.Walk` over the served root is modelled by the
  list of callback invocations it performs, in order: `WalkEvent.file
  p mt r` is a visit of a regular file (directory entries return early
  in the callback and are irrelevant), where `r` is the outcome that
  `os.ReadFile` would give for that file; `WalkEvent.error m` is a
  walk-level error passed to the callback (which the callback returns,
  aborting the walk).  `filepath.Walk` visits each path at most once,
  which appears below as `Nodup` hypotheses on the event paths.
* `walkFiles` is the walk loop with the Go callback inlined; it also
  records, in order, the upserts it performs (each upsert is exactly
  one `os.ReadFile` of a file's content, so the list of upserted paths
  is the list of content reads).  `loadFiles` wraps it with the
  post-walk deletion sweep, run only when the walk returned no error,
  exactly as the Go code does.
-/

namespace FastServe

/-- The cached state of one file, as in the Go `fileCache` struct. -/
structure fileCache where
  content : List Nat
  modTime : Int
deriving DecidableEq, Repr

/-- The cache map `map[string]*fileCache`. -/
abbrev Cache := String → Option fileCache

/-- The empty cache, as built by `newServer`. -/
def emptyCache : Cache := fun _ => none

/-- Map assignment `s.cache[relPath] = &fileCache{...}`. -/
def cacheInsert (c : Cache) (p : String) (e : fileCache) : Cache :=
  fun q => if q = p then some e else c q

instance : DecidableEq (Except String (List Nat)) := fun a b =>
  match a, b with
  | .error e, .error f =>
    if h : e = f then .isTrue (by rw [h]) else .isFalse (fun hh => h (Except.error.inj hh))
  | .ok x, .ok y =>
    if h : x = y then .isTrue (by rw [h]) else .isFalse (fun hh => h (Except.ok.inj hh))
  | .error _, .ok _ => .isFalse (fun hh => Except.noConfusion hh)
  | .ok _, .error _ => .isFalse (fun hh => Except.noConfusion hh)

/-- One callback invocation of `filepath.Walk` over the served root. -/
inductive WalkEvent where
  | file (relPath : String) (modTime : Int) (read : Except String (List Nat))
  | error (msg : String)
deriving DecidableEq, Repr

/-- The relative paths of the regular files a walk visits, in order. -/
def eventPaths : List WalkEvent → List String
  | [] => []
  | .file p _ _ :: rest => p :: eventPaths rest
  | .error _ :: rest => eventPaths rest

/-- The Go cache-hit test `exists && info.ModTime().Equal(cached.modTime)`. -/
def hitCache (c : Cache) (p : String) (mt : Int) : Bool :=
  match c p with
  | some cached => cached.modTime == mt
  | none => false

/-- Result of a walk / scan: the cache after it, the `seen` set, the
upserts performed in order (each one a fresh `os.ReadFile`), and the
error returned, if any. -/
structure ScanOut where
  cache : Cache
  seen : List String
  upserts : List (String × fileCache)
  err : Option String

/-- The `filepath.Walk` loop of `loadFiles` with its callback inlined:
a walk error is returned by the callback and aborts the walk; a
directory is skipped (never an event here); a file is marked seen,
skipped when cached with an equal modTime, otherwise read — a read
error aborts the walk, a successful read is stored with the file's
modTime. -/
def walkFiles : List WalkEvent → Cache → ScanOut
  | [], c => ⟨c, [], [], none⟩
  | .error m :: _, c => ⟨c, [], [], some m⟩
  | .file p mt r :: rest, c =>
    if hitCache c p mt then
      let o := walkFiles rest c
      ⟨o.cache, p :: o.seen, o.upserts, o.err⟩
    else
      match r with
      | .error m => ⟨c, [p], [], some m⟩
      | .ok content =>
        let o := walkFiles rest (cacheInsert c p ⟨content, mt⟩)
        ⟨o.cache, p :: o.seen, (p, fileCache.mk content mt) :: o.upserts, o.err⟩

/-- `(*server).loadFiles`: run the walk; when it returned an error,
surface it (the cache keeps whatever the partial walk did to it);
otherwise delete every cached path not seen during this scan. -/
def loadFiles (events : List WalkEvent) (c : Cache) : ScanOut :=
  let o := walkFiles events c
  match o.err with
  | some m => ⟨o.cache, o.seen, o.upserts, some m⟩
  | none => ⟨fun p => if p ∈ o.seen then o.cache p else none, o.seen, o.upserts, none⟩

/-- The paths whose content a scan read from disk (one `os.ReadFile`
per upsert). -/
def readPaths (o : ScanOut) : List String := o.upserts.map Prod.fst

/-- Whether a walk contains a walk-level (directory traversal) error. -/
def hasWalkErr : List WalkEvent → Bool
  | [] => false
  | .error _ :: _ => true
  | .file _ _ _ :: rest => hasWalkErr rest

/-- Whether every file visit in a walk would read successfully. -/
def allReadsOk : List WalkEvent → Bool
  | [] => true
  | .error _ :: rest => allReadsOk rest
  | .file _ _ (.error _) :: _ => false
  | .file _ _ (.ok _) :: rest => allReadsOk rest

/-- mtime-based change detection is sound for `c` on this walk: a
cached entry whose modTime equals a file's on-disk modTime holds that
file's on-disk bytes.  Every cache the program builds satisfies this
(entries are only ever stored from a successful read of the file at
its recorded modTime), provided the filesystem changes a file's
modTime when it changes its bytes. -/
def consistentWith (events : List WalkEvent) (c : Cache) : Prop :=
  ∀ p mt content e, WalkEvent.file p mt (Except.ok content) ∈ events →
    c p = some e → e.modTime = mt → e.content = content

/-! ### Atomic cache mutations of a reconcile

In the Go code every mutation of the shared cache map happens under
`s.mu.Lock()`: each upsert of one entry is one critical section, and
the whole deletion sweep is a single critical section; lookups run
under `s.mu.RLock()`.  The states a concurrent lookup can observe
during a reconcile are therefore exactly the states reached by
applying a prefix of the reconcile's mutation steps, in order, to the
pre-scan cache.  An entry is always written as a whole (one pointer
store under the lock), so an observed entry is never torn between two
disk versions. -/

inductive Mutation where
  | upsertStep (p : String) (e : fileCache)
  | deleteSweep (seen : List String)

/-- One locked critical section applied to the cache. -/
def applyMutation (c : Cache) : Mutation → Cache
  | .upsertStep p e => cacheInsert c p e
  | .deleteSweep seen => fun q => if q ∈ seen then c q else none

def applyMutations (c : Cache) (ms : List Mutation) : Cache :=
  ms.foldl applyMutation c

def applyUpserts (c : Cache) (us : List (String × fileCache)) : Cache :=
  us.foldl (fun c2 pe => cacheInsert c2 pe.1 pe.2) c

/-- The sequence of locked mutation steps a `loadFiles` run performs:
its upserts in walk order, then — only when the walk succeeded — the
single deletion sweep. -/
def scanMutations (ev : List WalkEvent) (c : Cache) : List Mutation :=
  let o := walkFiles ev c
  match o.err with
  | some _ => o.upserts.map (fun pe => Mutation.upsertStep pe.1 pe.2)
  | none => o.upserts.map (fun pe => Mutation.upsertStep pe.1 pe.2)
      ++ [Mutation.deleteSweep o.seen]

/-! ### Rate limiter and request handler

`time.Time` instants and `time.Duration` values are Int nanoseconds;
`time.Minute` is `minuteNs`.  The visitors map `map[string]time.Time`
is a partial function from caller address to last-visit instant.
`handleRequest` returns `none` where the Go code panics (the
out-of-range slice `r.URL.Path[1:]` on an empty path), and otherwise
`some` of the response and the updated server state. -/

def minuteNs : Int := 60000000000

abbrev Visitors := String → Option Int

/-- The clean-up loop at the top of `rateLimit`: drop every visitor
whose last visit is more than one minute before `now`. -/
def purgeVisitors (v : Visitors) (now : Int) : Visitors :=
  fun q =>
    match v q with
    | some t => if now - t > minuteNs then none else some t
    | none => none

/-- Map assignment `s.visitors[ip] = now`. -/
def visitorInsert (v : Visitors) (ip : String) (t : Int) : Visitors :=
  fun q => if q = ip then some t else v q

/-- `(*server).rateLimit`: purge old visitors, then reject when the
caller's (surviving) last visit is closer than `minRequestInterval`,
else record `now` and admit.  Returns the grant decision and the
visitors map after the call. -/
def rateLimit (v : Visitors) (minRequestInterval now : Int) (ip : String) :
    Bool × Visitors :=
  let v1 := purgeVisitors v now
  match v1 ip with
  | some lastVisit =>
    if now - lastVisit < minRequestInterval then (false, v1)
    else (true, visitorInsert v1 ip now)
  | none => (true, visitorInsert v1 ip now)

/-- What `handleRequest` hands to the HTTP layer: `http.Error(...,
StatusTooManyRequests)`, `http.NotFound`, or `http.ServeContent` with
the cached bytes and modTime. -/
inductive Response where
  | tooManyRequests
  | notFound
  | content (bytes : List Nat) (modTime : Int)
deriving DecidableEq, Repr

/-- The fields of the Go `server` struct that requests touch. -/
structure serverState where
  cache : Cache
  visitors : Visitors
  minRequestInterval : Int

/-- `(*server).handleRequest` on one request: rate-limit by
`r.RemoteAddr` first (rejecting without touching the cache), then
compute the lookup key `r.URL.Path[1:]` — a panic (`none`) when the
URL path is empty — and serve the cache lookup result. -/
def handleRequest (s : serverState) (now : Int) (remoteAddr urlPath : String) :
    Option (Response × serverState) :=
  let rl := rateLimit s.visitors s.minRequestInterval now remoteAddr
  if rl.1 = false then some (.tooManyRequests, { s with visitors := rl.2 }) else
  if urlPath.length < 1 then none else
  match s.cache (urlPath.drop 1) with
  | none => some (.notFound, { s with visitors := rl.2 })
  | some cached => some (.content cached.content cached.modTime, { s with visitors := rl.2 })

/-! ### Process lifecycle (`main`)

`runStartup` is the initial synchronous load from the fresh
`newServer` cache: an error is `log.Fatalf`, i.e. the process exits
non-zero before any listener is bound, so `Except.error` carries no
server state to serve from.  `refreshStep` is one iteration of the
refresh goroutine: a failed `loadFiles` only logs, so serving
continues with whatever cache the call left behind.  `refreshLoop`
chains the scheduled refreshes; it is total, so an error in one
refresh never stops later ones. -/

def runStartup (ev : List WalkEvent) : Except String Cache :=
  let o := loadFiles ev emptyCache
  match o.err with
  | some m => Except.error m
  | none => Except.ok o.cache

def refreshStep (ev : List WalkEvent) (c : Cache) : Cache :=
  (loadFiles ev c).cache

def refreshLoop (scans : List (List WalkEvent)) (c : Cache) : Cache :=
  scans.foldl (fun c2 ev => refreshStep ev c2) c

/-! ### Basic walk lemmas -/

theorem hitCache_iff (c : Cache) (p : String) (mt : Int) :
    hitCache c p mt = true ↔ ∃ e, c p = some e ∧ e.modTime = mt := by
  unfold hitCache
  cases hc : c p with
  | none => simp
  | some cached => simp

theorem walkFiles_cache_untouched (ev : List WalkEvent) (c : Cache) (q : String)
    (hq : q ∉ eventPaths ev) : (walkFiles ev c).cache q = c q := by
  induction ev generalizing c with
  | nil => rfl
  | cons head rest ih =>
    cases head with
    | error m => rfl
    | file p mt r =>
      simp only [eventPaths, List.mem_cons, not_or] at hq
      obtain ⟨hqp, hqrest⟩ := hq
      simp only [walkFiles]
      split_ifs with hh
      · exact ih c hqrest
      · cases r with
        | error m => rfl
        | ok content =>
          show (walkFiles rest (cacheInsert c p ⟨content, mt⟩)).cache q = c q
          rw [ih _ hqrest]
          simp [cacheInsert, hqp]

theorem walkFiles_keys_sublist (ev : List WalkEvent) (c : Cache) :
    ((walkFiles ev c).upserts.map Prod.fst).Sublist (eventPaths ev) := by
  induction ev generalizing c with
  | nil => simp [walkFiles]
  | cons head rest ih =>
    cases head with
    | error m => simp [walkFiles]
    | file p mt r =>
      simp only [walkFiles, eventPaths]
      split_ifs with hh
      · exact (ih c).cons p
      · cases r with
        | error m => simp [eventPaths]
        | ok content =>
          show List.Sublist
              (((p, fileCache.mk content mt) ::
                (walkFiles rest (cacheInsert c p ⟨content, mt⟩)).upserts).map Prod.fst)
              (p :: eventPaths rest)
          simpa using (ih (cacheInsert c p ⟨content, mt⟩)).cons₂ p

theorem walkFiles_seen_of_ok (ev : List WalkEvent) (c : Cache)
    (h : (walkFiles ev c).err = none) : (walkFiles ev c).seen = eventPaths ev := by
  induction ev generalizing c with
  | nil => rfl
  | cons head rest ih =>
    cases head with
    | error m => simp [walkFiles] at h
    | file p mt r =>
      simp only [walkFiles] at h ⊢
      split_ifs at h ⊢ with hh
      · show p :: (walkFiles rest c).seen = p :: eventPaths rest
        rw [ih c h]
      · cases r with
        | error m => simp at h
        | ok content =>
          show p :: (walkFiles rest (cacheInsert c p ⟨content, mt⟩)).seen = p :: eventPaths rest
          rw [ih _ h]

theorem walkFiles_err_of_walkErr (ev : List WalkEvent) (c : Cache)
    (h : hasWalkErr ev = true) : (walkFiles ev c).err.isSome = true := by
  induction ev generalizing c with
  | nil => simp [hasWalkErr] at h
  | cons head rest ih =>
    cases head with
    | error m => rfl
    | file p mt r =>
      simp only [walkFiles]
      split_ifs with hh
      · exact ih c h
      · cases r with
        | error m => rfl
        | ok content => exact ih _ h

theorem walkFiles_cache_pre_or_fresh (ev : List WalkEvent) (c : Cache) (p : String) :
    (walkFiles ev c).cache p = c p ∨
    ∃ mt content, WalkEvent.file p mt (Except.ok content) ∈ ev ∧
      (walkFiles ev c).cache p = some ⟨content, mt⟩ := by
  induction ev generalizing c with
  | nil => left; rfl
  | cons head rest ih =>
    cases head with
    | error m => left; rfl
    | file q mtq r =>
      simp only [walkFiles]
      split_ifs with hh
      · rcases ih c with h1 | ⟨mt, content, hmem, h2⟩
        · left; exact h1
        · right; exact ⟨mt, content, List.mem_cons_of_mem _ hmem, h2⟩
      · cases r with
        | error m => left; rfl
        | ok content =>
          rcases ih (cacheInsert c q ⟨content, mtq⟩) with h1 | ⟨mt, cont, hmem, h2⟩
          · by_cases hpq : p = q
            · right
              subst hpq
              refine ⟨mtq, content, List.mem_cons_self _ _, ?_⟩
              show (walkFiles rest (cacheInsert c p ⟨content, mtq⟩)).cache p = _
              rw [h1]
              simp [cacheInsert]
            · left
              show (walkFiles rest (cacheInsert c q ⟨content, mtq⟩)).cache p = c p
              rw [h1]
              simp [cacheInsert, hpq]
          · right; exact ⟨mt, cont, List.mem_cons_of_mem _ hmem, h2⟩

theorem eventPaths_mem_of_file (ev : List WalkEvent) (p : String) (mt : Int)
    (r : Except String (List Nat)) (h : WalkEvent.file p mt r ∈ ev) : p ∈ eventPaths ev := by
  induction ev with
  | nil => simp at h
  | cons head rest ih =>
    cases head with
    | error m =>
      rcases List.mem_cons.mp h with h1 | h2
      · exact absurd h1 (by simp)
      · exact ih h2
    | file q mtq rq =>
      rcases List.mem_cons.mp h with h1 | h2
      · injection h1 with h1p h1mt h1r
        subst h1p
        exact List.mem_cons_self _ _
      · exact List.mem_cons_of_mem _ (ih h2)

/-! ### Glue between loadFiles and the walk -/

theorem loadFiles_err (ev : List WalkEvent) (c : Cache) :
    (loadFiles ev c).err = (walkFiles ev c).err := by
  unfold loadFiles
  cases h : (walkFiles ev c).err <;> simp [h]

theorem loadFiles_upserts (ev : List WalkEvent) (c : Cache) :
    (loadFiles ev c).upserts = (walkFiles ev c).upserts := by
  unfold loadFiles
  cases h : (walkFiles ev c).err <;> simp [h]

theorem loadFiles_cache_of_ok (ev : List WalkEvent) (c : Cache)
    (h : (walkFiles ev c).err = none) (p : String) :
    (loadFiles ev c).cache p =
      if p ∈ eventPaths ev then (walkFiles ev c).cache p else none := by
  simp only [loadFiles, h, walkFiles_seen_of_ok ev c h]

theorem loadFiles_cache_of_err (ev : List WalkEvent) (c : Cache) (m : String)
    (h : (walkFiles ev c).err = some m) (p : String) :
    (loadFiles ev c).cache p = (walkFiles ev c).cache p := by
  unfold loadFiles
  simp [h]

/-! ### Correctness of a clean scan (claim C1) -/

theorem walkFiles_correct (ev : List WalkEvent) (c : Cache)
    (hnd : (eventPaths ev).Nodup)
    (hwe : hasWalkErr ev = false) (hro : allReadsOk ev = true)
    (hco : consistentWith ev c) :
    (walkFiles ev c).err = none ∧
    ∀ p mt content, WalkEvent.file p mt (Except.ok content) ∈ ev →
      (walkFiles ev c).cache p = some ⟨content, mt⟩ := by
  induction ev generalizing c with
  | nil =>
    refine ⟨rfl, ?_⟩
    intro p mt content h
    simp at h
  | cons head rest ih =>
    cases head with
    | error m => simp [hasWalkErr] at hwe
    | file q mtq rq =>
      have hndr : (eventPaths rest).Nodup := by
        simp only [eventPaths, List.nodup_cons] at hnd
        exact hnd.2
      have hqnot : q ∉ eventPaths rest := by
        simp only [eventPaths, List.nodup_cons] at hnd
        exact hnd.1
      cases rq with
      | error m => simp [allReadsOk] at hro
      | ok content =>
        have hwer : hasWalkErr rest = false := hwe
        have hror : allReadsOk rest = true := hro
        simp only [walkFiles]
        split_ifs with hh
        · have hcor : consistentWith rest c := by
            intro p mt cont e2 hm hc2 hmt
            exact hco p mt cont e2 (List.mem_cons_of_mem _ hm) hc2 hmt
          obtain ⟨herr, hall⟩ := ih c hndr hwer hror hcor
          refine ⟨herr, ?_⟩
          intro p mt cont hm
          rcases List.mem_cons.mp hm with h1 | h2
          · injection h1 with h1p h1mt h1r
            subst h1p
            subst h1mt
            injection h1r with h1c
            subst h1c
            obtain ⟨e, hce, hemt⟩ := (hitCache_iff _ _ _).mp hh
            have hecontent := hco _ _ _ e (List.mem_cons_self _ _) hce hemt
            dsimp only
            rw [walkFiles_cache_untouched rest c _ hqnot, hce]
            obtain ⟨ec, em⟩ := e
            simp only [Option.some.injEq, fileCache.mk.injEq]
            exact ⟨hecontent, hemt⟩
          · exact hall p mt cont h2
        · have hcor : consistentWith rest (cacheInsert c q ⟨content, mtq⟩) := by
            intro p mt cont e2 hm hc2 hmt
            by_cases hpq : p = q
            · exact absurd (hpq ▸ eventPaths_mem_of_file rest p mt _ hm) (hpq ▸ hqnot)
            · have hcp : c p = some e2 := by simpa [cacheInsert, hpq] using hc2
              exact hco p mt cont e2 (List.mem_cons_of_mem _ hm) hcp hmt
          obtain ⟨herr, hall⟩ := ih _ hndr hwer hror hcor
          refine ⟨herr, ?_⟩
          intro p mt cont hm
          rcases List.mem_cons.mp hm with h1 | h2
          · injection h1 with h1p h1mt h1r
            subst h1p
            subst h1mt
            injection h1r with h1c
            subst h1c
            show (walkFiles rest (cacheInsert c p ⟨cont, mt⟩)).cache p = some ⟨cont, mt⟩
            rw [walkFiles_cache_untouched rest _ p hqnot]
            simp [cacheInsert]
          · exact hall p mt cont h2

/-- C1: for every regular file under the served root, a completed
`loadFiles` scan (clean walk, all reads succeed, mtime change
detection sound for the prior cache) leaves a cache entry at the
file's root-relative path whose content is the file's on-disk bytes
and whose modTime is the file's on-disk modification time; every path
with no file on disk (in particular any file removed before this
scan) looks up as absent afterwards. -/
theorem loadFiles_reflects_disk (ev : List WalkEvent) (c : Cache)
    (hnd : (eventPaths ev).Nodup)
    (hwe : hasWalkErr ev = false) (hro : allReadsOk ev = true)
    (hco : consistentWith ev c) :
    (∀ p mt content, WalkEvent.file p mt (Except.ok content) ∈ ev →
      (loadFiles ev c).cache p = some ⟨content, mt⟩) ∧
    (∀ p, p ∉ eventPaths ev → (loadFiles ev c).cache p = none) := by
  obtain ⟨herr, hall⟩ := walkFiles_correct ev c hnd hwe hro hco
  constructor
  · intro p mt content hm
    have hp : p ∈ eventPaths ev := eventPaths_mem_of_file ev p mt _ hm
    rw [loadFiles_cache_of_ok ev c herr p, if_pos hp]
    exact hall p mt content hm
  · intro p hp
    rw [loadFiles_cache_of_ok ev c herr p, if_neg hp]

/-- Witness for C1 at a concrete one-file disk and the empty cache. -/
theorem loadFiles_reflects_disk_witness :
    (loadFiles [WalkEvent.file "a.txt" 1 (Except.ok [104, 105])] emptyCache).cache "a.txt"
        = some ⟨[104, 105], 1⟩ ∧
    (loadFiles [WalkEvent.file "a.txt" 1 (Except.ok [104, 105])] emptyCache).cache "gone.txt"
        = none := by
  have h := loadFiles_reflects_disk [WalkEvent.file "a.txt" 1 (Except.ok [104, 105])] emptyCache
    (by decide) (by decide) (by decide)
    (by intro p mt content e hm hc hmt; simp [emptyCache] at hc)
  exact ⟨h.1 "a.txt" 1 [104, 105] (by decide), h.2 "gone.txt" (by decide)⟩

/-! ### Failed scans (claims C2, C4)

The Go `loadFiles` upserts entries *during* the walk, under the lock
one entry at a time; only the deletion sweep is deferred until after a
successful walk.  A walk that fails therefore surfaces its error and
skips the deletion sweep, but upserts already performed stay in the
cache — the pre-scan state is not restored. -/

/-- C2 counterexample: a scan that aborts on a walk error after
upserting a new file leaves that entry in the cache, so the cache is
not in its pre-scan state. -/
theorem loadFiles_failed_scan_mutates_cache_cex :
    (loadFiles [WalkEvent.file "a" 1 (Except.ok [104]), WalkEvent.error "io"] emptyCache).err
        = some "io" ∧
    emptyCache "a" = none ∧
    (loadFiles [WalkEvent.file "a" 1 (Except.ok [104]), WalkEvent.error "io"] emptyCache).cache "a"
        = some ⟨[104], 1⟩ := by
  refine ⟨by decide, rfl, by decide⟩

/-- C2 amended: an I/O error during the directory walk aborts the scan
and surfaces the error, and the deletion sweep is not applied — but
upserts performed before the error remain visible: afterwards every
path holds either its pre-scan entry or an entry freshly read from
disk by this scan; no entry is removed. -/
theorem loadFiles_walkErr_aborts (ev : List WalkEvent) (c : Cache)
    (h : hasWalkErr ev = true) :
    (loadFiles ev c).err.isSome = true ∧
    ∀ p, (loadFiles ev c).cache p = c p ∨
      ∃ mt content, WalkEvent.file p mt (Except.ok content) ∈ ev ∧
        (loadFiles ev c).cache p = some ⟨content, mt⟩ := by
  have herr := walkFiles_err_of_walkErr ev c h
  obtain ⟨m, hm⟩ := Option.isSome_iff_exists.mp herr
  constructor
  · rw [loadFiles_err]
    exact herr
  · intro p
    rw [loadFiles_cache_of_err ev c m hm p]
    exact walkFiles_cache_pre_or_fresh ev c p

theorem loadFiles_walkErr_aborts_witness :
    hasWalkErr [WalkEvent.file "a" 1 (Except.ok [104]), WalkEvent.error "io"] = true ∧
    ((loadFiles [WalkEvent.file "a" 1 (Except.ok [104]), WalkEvent.error "io"] emptyCache).err.isSome
        = true ∧
      ∀ p, (loadFiles [WalkEvent.file "a" 1 (Except.ok [104]), WalkEvent.error "io"]
            emptyCache).cache p = emptyCache p ∨
        ∃ mt content,
          WalkEvent.file p mt (Except.ok content)
              ∈ [WalkEvent.file "a" 1 (Except.ok [104]), WalkEvent.error "io"] ∧
          (loadFiles [WalkEvent.file "a" 1 (Except.ok [104]), WalkEvent.error "io"]
              emptyCache).cache p = some ⟨content, mt⟩) :=
  ⟨by decide, loadFiles_walkErr_aborts _ emptyCache (by decide)⟩

/-- C4 counterexample: when reading the first file's content fails,
the scan aborts with that error and the second file is never cached —
the scan does not continue for the other files. -/
theorem loadFiles_readErr_not_skipped_cex :
    (loadFiles [WalkEvent.file "a" 1 (Except.error "denied"), WalkEvent.file "b" 2 (Except.ok [98])]
        emptyCache).err = some "denied" ∧
    (loadFiles [WalkEvent.file "a" 1 (Except.error "denied"), WalkEvent.file "b" 2 (Except.ok [98])]
        emptyCache).cache "b" = none := by
  refine ⟨by decide, by decide⟩

theorem walkFiles_readErr_aborts (ev : List WalkEvent) (c : Cache)
    (hnd : (eventPaths ev).Nodup) (p : String) (mt : Int) (m : String)
    (hm : WalkEvent.file p mt (Except.error m) ∈ ev)
    (hmiss : hitCache c p mt = false) :
    (walkFiles ev c).err.isSome = true ∧ (walkFiles ev c).cache p = c p := by
  induction ev generalizing c with
  | nil => simp at hm
  | cons head rest ih =>
    cases head with
    | error m2 => exact ⟨rfl, rfl⟩
    | file q mtq rq =>
      have hndr : (eventPaths rest).Nodup := by
        simp only [eventPaths, List.nodup_cons] at hnd
        exact hnd.2
      have hqnot : q ∉ eventPaths rest := by
        simp only [eventPaths, List.nodup_cons] at hnd
        exact hnd.1
      rcases List.mem_cons.mp hm with h1 | h2
      · injection h1 with h1p h1mt h1r
        subst h1p
        subst h1mt
        subst h1r
        simp only [walkFiles]
        split_ifs with hh
        · rw [hmiss] at hh
          exact absurd hh (by simp)
        · exact ⟨rfl, rfl⟩
      · have hqp : q ≠ p := fun hqpe => hqnot (hqpe ▸ eventPaths_mem_of_file rest p mt _ h2)
        simp only [walkFiles]
        split_ifs with hh
        · exact ih c hndr h2 hmiss
        · cases rq with
          | error m2 => exact ⟨rfl, rfl⟩
          | ok content =>
            have hcp : cacheInsert c q ⟨content, mtq⟩ p = c p := by
              simp [cacheInsert, Ne.symm hqp]
            have hmiss2 : hitCache (cacheInsert c q ⟨content, mtq⟩) p mt = false := by
              unfold hitCache
              rw [hcp]
              exact hmiss
            obtain ⟨ha, hb⟩ := ih _ hndr h2 hmiss2
            refine ⟨ha, ?_⟩
            dsimp only
            rw [hb, hcp]

/-- C4 amended: a failing `os.ReadFile` of a single file (one that is
not skipped as a cache hit) aborts the entire scan exactly like a
directory-walk error — the error is surfaced, later files are not
processed, the deletion sweep is skipped, and the failing file's own
entry is left unchanged for this cycle. -/
theorem loadFiles_readErr_aborts (ev : List WalkEvent) (c : Cache)
    (hnd : (eventPaths ev).Nodup) (p : String) (mt : Int) (m : String)
    (hm : WalkEvent.file p mt (Except.error m) ∈ ev)
    (hmiss : hitCache c p mt = false) :
    (loadFiles ev c).err.isSome = true ∧ (loadFiles ev c).cache p = c p := by
  obtain ⟨ha, hb⟩ := walkFiles_readErr_aborts ev c hnd p mt m hm hmiss
  obtain ⟨m2, hm2⟩ := Option.isSome_iff_exists.mp ha
  constructor
  · rw [loadFiles_err]
    exact ha
  · rw [loadFiles_cache_of_err ev c m2 hm2 p]
    exact hb

theorem loadFiles_readErr_aborts_witness :
    (eventPaths [WalkEvent.file "x" 5 (Except.error "eacces")]).Nodup ∧
    WalkEvent.file "x" 5 (Except.error "eacces") ∈ [WalkEvent.file "x" 5 (Except.error "eacces")] ∧
    hitCache emptyCache "x" 5 = false ∧
    ((loadFiles [WalkEvent.file "x" 5 (Except.error "eacces")] emptyCache).err.isSome = true ∧
      (loadFiles [WalkEvent.file "x" 5 (Except.error "eacces")] emptyCache).cache "x"
        = emptyCache "x") :=
  ⟨by decide, by decide, by decide,
    loadFiles_readErr_aborts _ emptyCache (by decide) "x" 5 "eacces" (by decide) (by decide)⟩

/-! ### Incremental reconcile: hits are not re-read, misses are (claim C5) -/

theorem walkFiles_hit_kept (ev : List WalkEvent) (c : Cache)
    (hnd : (eventPaths ev).Nodup) (p : String) (mt : Int) (r : Except String (List Nat))
    (hm : WalkEvent.file p mt r ∈ ev) (e : fileCache) (hce : c p = some e)
    (hemt : e.modTime = mt) :
    p ∉ (walkFiles ev c).upserts.map Prod.fst ∧ (walkFiles ev c).cache p = some e := by
  induction ev generalizing c with
  | nil => simp at hm
  | cons head rest ih =>
    cases head with
    | error m => exact ⟨by simp [walkFiles], hce⟩
    | file q mtq rq =>
      have hndr : (eventPaths rest).Nodup := by
        simp only [eventPaths, List.nodup_cons] at hnd
        exact hnd.2
      have hqnot : q ∉ eventPaths rest := by
        simp only [eventPaths, List.nodup_cons] at hnd
        exact hnd.1
      rcases List.mem_cons.mp hm with h1 | h2
      · injection h1 with h1p h1mt h1r
        subst h1p
        subst h1mt
        subst h1r
        have hh : hitCache c p mt = true := (hitCache_iff c p mt).mpr ⟨e, hce, hemt⟩
        simp only [walkFiles, hh, if_true]
        constructor
        · intro hmem
          exact hqnot ((walkFiles_keys_sublist rest c).subset hmem)
        · dsimp only
          rw [walkFiles_cache_untouched rest c p hqnot]
          exact hce
      · have hqp : q ≠ p := fun hqpe => hqnot (hqpe ▸ eventPaths_mem_of_file rest p mt _ h2)
        simp only [walkFiles]
        split_ifs with hh
        · exact ih c hndr h2 hce
        · cases rq with
          | error m2 => exact ⟨by simp, hce⟩
          | ok content =>
            have hcp : cacheInsert c q ⟨content, mtq⟩ p = some e := by
              rw [show cacheInsert c q ⟨content, mtq⟩ p = c p by
                simp [cacheInsert, Ne.symm hqp]]
              exact hce
            obtain ⟨ha, hb⟩ := ih _ hndr h2 hcp
            refine ⟨?_, hb⟩
            dsimp only
            simp only [List.map_cons, List.mem_cons, not_or]
            exact ⟨Ne.symm hqp, ha⟩

theorem walkFiles_miss_read (ev : List WalkEvent) (c : Cache)
    (hnd : (eventPaths ev).Nodup) (p : String) (mt : Int) (r : Except String (List Nat))
    (hm : WalkEvent.file p mt r ∈ ev) (hmiss : hitCache c p mt = false)
    (hok : (walkFiles ev c).err = none) :
    ∃ content, r = Except.ok content ∧
      p ∈ (walkFiles ev c).upserts.map Prod.fst ∧
      (walkFiles ev c).cache p = some ⟨content, mt⟩ := by
  induction ev generalizing c with
  | nil => simp at hm
  | cons head rest ih =>
    cases head with
    | error m => simp [walkFiles] at hok
    | file q mtq rq =>
      have hndr : (eventPaths rest).Nodup := by
        simp only [eventPaths, List.nodup_cons] at hnd
        exact hnd.2
      have hqnot : q ∉ eventPaths rest := by
        simp only [eventPaths, List.nodup_cons] at hnd
        exact hnd.1
      rcases List.mem_cons.mp hm with h1 | h2
      · injection h1 with h1p h1mt h1r
        subst h1p
        subst h1mt
        subst h1r
        simp only [walkFiles] at hok ⊢
        split_ifs at hok ⊢ with hh
        · rw [hmiss] at hh
          exact absurd hh (by simp)
        · cases r with
          | error m2 => simp at hok
          | ok content =>
            refine ⟨content, rfl, by simp, ?_⟩
            dsimp only
            rw [walkFiles_cache_untouched rest _ p hqnot]
            simp [cacheInsert]
      · have hqp : q ≠ p := fun hqpe => hqnot (hqpe ▸ eventPaths_mem_of_file rest p mt _ h2)
        simp only [walkFiles] at hok ⊢
        split_ifs at hok ⊢ with hh
        · exact ih c hndr h2 hmiss hok
        · cases rq with
          | error m2 => simp at hok
          | ok content =>
            have hmiss2 : hitCache (cacheInsert c q ⟨content, mtq⟩) p mt = false := by
              unfold hitCache
              rw [show cacheInsert c q ⟨content, mtq⟩ p = c p by
                simp [cacheInsert, Ne.symm hqp]]
              exact hmiss
            obtain ⟨cont, hr, hmem, hb⟩ := ih _ hndr h2 hmiss2 hok
            exact ⟨cont, hr, by simp [hmem], hb⟩

/-- C5: in a completed scan, a file whose on-disk modTime equals the
cached entry's modTime is not re-read from disk (its path is absent
from the scan's read/upsert list) and its entry — content and modTime
— survives unchanged; a file that is new or whose modTime differs is
read fresh (the read must have succeeded for the scan to complete)
and its entry is upserted with the on-disk content and modTime. -/
theorem loadFiles_incremental (ev : List WalkEvent) (c : Cache)
    (hnd : (eventPaths ev).Nodup) (hok : (loadFiles ev c).err = none)
    (p : String) (mt : Int) (r : Except String (List Nat))
    (hm : WalkEvent.file p mt r ∈ ev) :
    (∀ e, c p = some e → e.modTime = mt →
      p ∉ readPaths (loadFiles ev c) ∧ (loadFiles ev c).cache p = some e) ∧
    (hitCache c p mt = false →
      ∃ content, r = Except.ok content ∧
        p ∈ readPaths (loadFiles ev c) ∧
        (loadFiles ev c).cache p = some ⟨content, mt⟩) := by
  rw [loadFiles_err] at hok
  have hp : p ∈ eventPaths ev := eventPaths_mem_of_file ev p mt _ hm
  constructor
  · intro e hce hemt
    obtain ⟨ha, hb⟩ := walkFiles_hit_kept ev c hnd p mt r hm e hce hemt
    refine ⟨?_, ?_⟩
    · unfold readPaths
      rw [loadFiles_upserts]
      exact ha
    · rw [loadFiles_cache_of_ok ev c hok p, if_pos hp]
      exact hb
  · intro hmiss
    obtain ⟨content, hr, hmem, hb⟩ := walkFiles_miss_read ev c hnd p mt r hm hmiss hok
    refine ⟨content, hr, ?_, ?_⟩
    · unfold readPaths
      rw [loadFiles_upserts]
      exact hmem
    · rw [loadFiles_cache_of_ok ev c hok p, if_pos hp]
      exact hb

/-- Witness for C5: a stale-content entry with an unchanged modTime is
kept without a re-read, while a new file is read and upserted. -/
theorem loadFiles_incremental_witness :
    ((cacheInsert emptyCache "a" ⟨[9], 1⟩) "a" = some ⟨[9], 1⟩ ∧
      "a" ∉ readPaths (loadFiles
        [WalkEvent.file "a" 1 (Except.ok [1]), WalkEvent.file "b" 2 (Except.ok [2, 3])]
        (cacheInsert emptyCache "a" ⟨[9], 1⟩)) ∧
      (loadFiles [WalkEvent.file "a" 1 (Except.ok [1]), WalkEvent.file "b" 2 (Except.ok [2, 3])]
        (cacheInsert emptyCache "a" ⟨[9], 1⟩)).cache "a" = some ⟨[9], 1⟩) ∧
    ("b" ∈ readPaths (loadFiles
        [WalkEvent.file "a" 1 (Except.ok [1]), WalkEvent.file "b" 2 (Except.ok [2, 3])]
        (cacheInsert emptyCache "a" ⟨[9], 1⟩)) ∧
      (loadFiles [WalkEvent.file "a" 1 (Except.ok [1]), WalkEvent.file "b" 2 (Except.ok [2, 3])]
        (cacheInsert emptyCache "a" ⟨[9], 1⟩)).cache "b" = some ⟨[2, 3], 2⟩) := by
  have hA := loadFiles_incremental
    [WalkEvent.file "a" 1 (Except.ok [1]), WalkEvent.file "b" 2 (Except.ok [2, 3])]
    (cacheInsert emptyCache "a" ⟨[9], 1⟩) (by decide) (by decide)
    "a" 1 (Except.ok [1]) (by decide)
  have hB := loadFiles_incremental
    [WalkEvent.file "a" 1 (Except.ok [1]), WalkEvent.file "b" 2 (Except.ok [2, 3])]
    (cacheInsert emptyCache "a" ⟨[9], 1⟩) (by decide) (by decide)
    "b" 2 (Except.ok [2, 3]) (by decide)
  obtain ⟨ha1, ha2⟩ := hA.1 ⟨[9], 1⟩ (by decide) rfl
  obtain ⟨content, hr, hb1, hb2⟩ := hB.2 (by decide)
  have hcontent : content = [2, 3] := by
    injection hr.symm with h
  subst hcontent
  exact ⟨⟨by decide, ha1, ha2⟩, hb1, hb2⟩

/-! ### Idempotence of the reconcile (claim C6) -/

theorem hasWalkErr_eq_false_of_ok (ev : List WalkEvent) (c : Cache)
    (h : (walkFiles ev c).err = none) : hasWalkErr ev = false := by
  cases hwe : hasWalkErr ev with
  | false => rfl
  | true =>
    have hsome := walkFiles_err_of_walkErr ev c hwe
    rw [h] at hsome
    simp at hsome

theorem walkFiles_all_hits (ev : List WalkEvent) (c : Cache) :
    (∀ p mt r, WalkEvent.file p mt r ∈ ev → hitCache c p mt = true) →
    hasWalkErr ev = false →
    (walkFiles ev c).err = none ∧ ∀ q, (walkFiles ev c).cache q = c q := by
  induction ev with
  | nil => exact fun _ _ => ⟨rfl, fun q => rfl⟩
  | cons head rest ih =>
    intro hall hwe
    cases head with
    | error m => simp [hasWalkErr] at hwe
    | file p mt r =>
      have hh := hall p mt r (List.mem_cons_self _ _)
      obtain ⟨ha, hb⟩ := ih (fun p2 mt2 r2 hm2 => hall p2 mt2 r2 (List.mem_cons_of_mem _ hm2)) hwe
      simp only [walkFiles]
      rw [if_pos hh]
      exact ⟨ha, fun q => hb q⟩

/-- C6: running `loadFiles` a second time over the same unchanged
filesystem succeeds and leaves the cache exactly as the first run
left it. -/
theorem loadFiles_idempotent (ev : List WalkEvent) (c : Cache)
    (hnd : (eventPaths ev).Nodup) (hok : (loadFiles ev c).err = none) :
    (loadFiles ev (loadFiles ev c).cache).err = none ∧
    (loadFiles ev (loadFiles ev c).cache).cache = (loadFiles ev c).cache := by
  set c1 := (loadFiles ev c).cache with hc1
  rw [loadFiles_err] at hok
  have hhits : ∀ p mt r, WalkEvent.file p mt r ∈ ev → hitCache c1 p mt = true := by
    intro p mt r hm
    by_cases hh : hitCache c p mt = true
    · obtain ⟨e, hce, hemt⟩ := (hitCache_iff c p mt).mp hh
      obtain ⟨_, hb⟩ := walkFiles_hit_kept ev c hnd p mt r hm e hce hemt
      refine (hitCache_iff c1 p mt).mpr ⟨e, ?_, hemt⟩
      rw [hc1, loadFiles_cache_of_ok ev c hok p, if_pos (eventPaths_mem_of_file ev p mt r hm)]
      exact hb
    · obtain ⟨content, hr, _, hb⟩ := walkFiles_miss_read ev c hnd p mt r hm (by simpa using hh) hok
      refine (hitCache_iff c1 p mt).mpr ⟨⟨content, mt⟩, ?_, rfl⟩
      rw [hc1, loadFiles_cache_of_ok ev c hok p, if_pos (eventPaths_mem_of_file ev p mt r hm)]
      exact hb
  have hwe : hasWalkErr ev = false := hasWalkErr_eq_false_of_ok ev c hok
  obtain ⟨ha, hb⟩ := walkFiles_all_hits ev c1 hhits hwe
  have hdom : ∀ p, p ∉ eventPaths ev → c1 p = none := by
    intro p hp
    rw [hc1, loadFiles_cache_of_ok ev c hok p, if_neg hp]
  constructor
  · rw [loadFiles_err]
    exact ha
  · funext p
    rw [loadFiles_cache_of_ok ev c1 ha p]
    by_cases hp : p ∈ eventPaths ev
    · rw [if_pos hp]
      exact hb p
    · rw [if_neg hp]
      exact (hdom p hp).symm

theorem loadFiles_idempotent_witness :
    (eventPaths [WalkEvent.file "a" 1 (Except.ok [7])]).Nodup ∧
    (loadFiles [WalkEvent.file "a" 1 (Except.ok [7])] emptyCache).err = none ∧
    ((loadFiles [WalkEvent.file "a" 1 (Except.ok [7])]
        (loadFiles [WalkEvent.file "a" 1 (Except.ok [7])] emptyCache).cache).err = none ∧
      (loadFiles [WalkEvent.file "a" 1 (Except.ok [7])]
        (loadFiles [WalkEvent.file "a" 1 (Except.ok [7])] emptyCache).cache).cache
        = (loadFiles [WalkEvent.file "a" 1 (Except.ok [7])] emptyCache).cache) :=
  ⟨by decide, by decide, loadFiles_idempotent _ emptyCache (by decide) (by decide)⟩

/-! ### Per-key atomicity of the reconcile (claim C3) -/

theorem applyUpserts_untouched (us : List (String × fileCache)) (c : Cache) (q : String)
    (hq : q ∉ us.map Prod.fst) : applyUpserts c us q = c q := by
  induction us generalizing c with
  | nil => rfl
  | cons pe rest ih =>
    simp only [List.map_cons, List.mem_cons, not_or] at hq
    show applyUpserts (cacheInsert c pe.1 pe.2) rest q = c q
    rw [ih _ hq.2]
    simp [cacheInsert, hq.1]

theorem walkFiles_cache_eq_applyUpserts (ev : List WalkEvent) (c : Cache) (q : String) :
    (walkFiles ev c).cache q = applyUpserts c (walkFiles ev c).upserts q := by
  induction ev generalizing c with
  | nil => rfl
  | cons head rest ih =>
    cases head with
    | error m => rfl
    | file p mt r =>
      simp only [walkFiles]
      split_ifs with hh
      · exact ih c
      · cases r with
        | error m => rfl
        | ok content =>
          dsimp only
          exact ih (cacheInsert c p ⟨content, mt⟩)

theorem applyUpserts_take_pre_or_post (us : List (String × fileCache)) (c : Cache)
    (hnd : (us.map Prod.fst).Nodup) (n : Nat) (k : String) :
    applyUpserts c (us.take n) k = c k ∨
    (k ∈ us.map Prod.fst ∧ applyUpserts c (us.take n) k = applyUpserts c us k) := by
  induction us generalizing c n with
  | nil =>
    left
    simp [applyUpserts]
  | cons pe rest ih =>
    cases n with
    | zero => left; rfl
    | succ m =>
      simp only [List.map_cons, List.nodup_cons] at hnd
      obtain ⟨hnotin, hndr⟩ := hnd
      rcases ih (cacheInsert c pe.1 pe.2) hndr m with h1 | ⟨hmem, h2⟩
      · by_cases hk : k = pe.1
        · right
          refine ⟨by simp [hk], ?_⟩
          show applyUpserts (cacheInsert c pe.1 pe.2) (rest.take m) k
            = applyUpserts (cacheInsert c pe.1 pe.2) rest k
          rw [h1, applyUpserts_untouched rest _ k (by rw [hk]; exact hnotin)]
        · left
          show applyUpserts (cacheInsert c pe.1 pe.2) (rest.take m) k = c k
          rw [h1]
          simp [cacheInsert, hk]
      · right
        exact ⟨by simp [hmem], h2⟩

theorem scanMutations_of_ok (ev : List WalkEvent) (c : Cache)
    (hok : (walkFiles ev c).err = none) :
    scanMutations ev c
      = (walkFiles ev c).upserts.map (fun pe => Mutation.upsertStep pe.1 pe.2)
        ++ [Mutation.deleteSweep (walkFiles ev c).seen] := by
  simp [scanMutations, hok]

theorem applyMutations_upserts (us : List (String × fileCache)) (c : Cache) :
    applyMutations c (us.map (fun pe => Mutation.upsertStep pe.1 pe.2))
      = applyUpserts c us := by
  induction us generalizing c with
  | nil => rfl
  | cons pe rest ih => exact ih (cacheInsert c pe.1 pe.2)

theorem applyMutations_scan_eq (ev : List WalkEvent) (c : Cache)
    (hok : (walkFiles ev c).err = none) (k : String) :
    applyMutations c (scanMutations ev c) k = (loadFiles ev c).cache k := by
  rw [scanMutations_of_ok ev c hok]
  unfold applyMutations
  rw [List.foldl_append]
  have h2 := applyMutations_upserts (walkFiles ev c).upserts c
  unfold applyMutations at h2
  rw [h2]
  show (if k ∈ (walkFiles ev c).seen then applyUpserts c (walkFiles ev c).upserts k else none)
    = (loadFiles ev c).cache k
  rw [← walkFiles_cache_eq_applyUpserts ev c k, walkFiles_seen_of_ok ev c hok,
    loadFiles_cache_of_ok ev c hok k]

/-- C3: in the lock discipline of the Go code, each upsert and the
single deletion sweep are individual exclusive critical sections, and
a concurrent lookup (under the shared lock) observes the cache after
some prefix of those steps.  For every such intermediate state and
every key, the lookup result is either the pre-reconcile value of
that key or its fully-committed post-reconcile value — never a third
value, and (entries being written whole) never an entry pairing
content from one disk version with the modTime of another. -/
theorem lookup_pre_or_post (ev : List WalkEvent) (c : Cache)
    (hnd : (eventPaths ev).Nodup) (hok : (loadFiles ev c).err = none)
    (n : Nat) (k : String) :
    applyMutations c ((scanMutations ev c).take n) k = c k ∨
    applyMutations c ((scanMutations ev c).take n) k = (loadFiles ev c).cache k := by
  rw [loadFiles_err] at hok
  have hkeysnd : ((walkFiles ev c).upserts.map Prod.fst).Nodup :=
    (walkFiles_keys_sublist ev c).nodup hnd
  rw [scanMutations_of_ok ev c hok]
  by_cases hn :
      n ≤ ((walkFiles ev c).upserts.map (fun pe => Mutation.upsertStep pe.1 pe.2)).length
  · rw [List.take_append_of_le_length hn, ← List.map_take]
    have hmt := applyMutations_upserts ((walkFiles ev c).upserts.take n) c
    rw [hmt]
    rcases applyUpserts_take_pre_or_post (walkFiles ev c).upserts c hkeysnd n k with
      h1 | ⟨hmem, h2⟩
    · left
      exact h1
    · right
      have hkseen : k ∈ eventPaths ev := (walkFiles_keys_sublist ev c).subset hmem
      rw [h2, ← walkFiles_cache_eq_applyUpserts ev c k,
        loadFiles_cache_of_ok ev c hok k, if_pos hkseen]
  · right
    rw [List.take_of_length_le (by simp at hn ⊢; omega)]
    rw [← scanMutations_of_ok ev c hok]
    exact applyMutations_scan_eq ev c hok k

theorem lookup_pre_or_post_witness :
    (eventPaths [WalkEvent.file "w" 3 (Except.ok [5])]).Nodup ∧
    (loadFiles [WalkEvent.file "w" 3 (Except.ok [5])] emptyCache).err = none ∧
    (applyMutations emptyCache
        ((scanMutations [WalkEvent.file "w" 3 (Except.ok [5])] emptyCache).take 1) "w"
        = emptyCache "w" ∨
      applyMutations emptyCache
        ((scanMutations [WalkEvent.file "w" 3 (Except.ok [5])] emptyCache).take 1) "w"
        = (loadFiles [WalkEvent.file "w" 3 (Except.ok [5])] emptyCache).cache "w") :=
  ⟨by decide, by decide,
    lookup_pre_or_post [WalkEvent.file "w" 3 (Except.ok [5])] emptyCache
      (by decide) (by decide) 1 "w"⟩

/-! ### Rate limiter (claims C7, C9) -/

/-- C7: a request first purges visitor entries older than the fixed
one-minute window, then is admitted exactly when the caller has no
surviving recorded grant or the time since that grant is at least the
configured minimum interval; on admit the caller's timestamp becomes
`now`; on reject the visitors map is only the purged one (no
timestamp update) and `handleRequest` answers "too many requests"
with the file cache untouched (the server state keeps its cache
field; the lookup is never reached). -/
theorem rateLimit_admission (v : Visitors) (minI now : Int) (ip : String)
    (s : serverState) (now2 : Int) (ip2 urlPath : String) :
    ((rateLimit v minI now ip).1 = true ↔
      (purgeVisitors v now ip = none ∨
        ∃ t, purgeVisitors v now ip = some t ∧ minI ≤ now - t)) ∧
    ((rateLimit v minI now ip).1 = true → (rateLimit v minI now ip).2 ip = some now) ∧
    ((rateLimit v minI now ip).1 = false →
      (rateLimit v minI now ip).2 = purgeVisitors v now) ∧
    ((rateLimit s.visitors s.minRequestInterval now2 ip2).1 = false →
      handleRequest s now2 ip2 urlPath
        = some (Response.tooManyRequests,
            { s with visitors := (rateLimit s.visitors s.minRequestInterval now2 ip2).2 })) := by
  refine ⟨?_, ?_, ?_, ?_⟩
  · unfold rateLimit
    cases hv : purgeVisitors v now ip with
    | none => simp [hv]
    | some t =>
      simp only [hv]
      split_ifs with hlt
      · simp only [Bool.false_eq_true, false_iff]
        push_neg
        refine ⟨by simp, ?_⟩
        intro t2 ht2
        injection ht2 with ht2e
        omega
      · simp only [true_iff]
        right
        exact ⟨t, rfl, by omega⟩
  · intro h
    unfold rateLimit at h ⊢
    cases hv : purgeVisitors v now ip with
    | none => simp [hv, visitorInsert]
    | some t =>
      simp only [hv] at h ⊢
      by_cases hlt : now - t < minI
      · rw [if_pos hlt] at h
        simp at h
      · rw [if_neg hlt]
        simp [visitorInsert]
  · intro h
    unfold rateLimit at h ⊢
    cases hv : purgeVisitors v now ip with
    | none => simp [hv] at h
    | some t =>
      simp only [hv] at h ⊢
      by_cases hlt : now - t < minI
      · rw [if_pos hlt]
      · rw [if_neg hlt] at h
        simp at h
  · intro h
    simp only [handleRequest, h, if_pos]

theorem rateLimit_admission_witness :
    (rateLimit (fun q => if q = "1.2.3.4" then some 99 else none) 5 100 "1.2.3.4").1 = false ∧
    handleRequest
        ⟨emptyCache, fun q => if q = "1.2.3.4" then some 99 else none, 5⟩ 100 "1.2.3.4" "/x"
      = some (Response.tooManyRequests,
          ⟨emptyCache,
            (rateLimit (fun q => if q = "1.2.3.4" then some 99 else none) 5 100 "1.2.3.4").2,
            5⟩) :=
  ⟨by decide,
    (rateLimit_admission (fun q => if q = "1.2.3.4" then some 99 else none) 5 100 "1.2.3.4"
      ⟨emptyCache, fun q => if q = "1.2.3.4" then some 99 else none, 5⟩ 100 "1.2.3.4" "/x").2.2.2
      (by decide)⟩

/-- C9: every `rateLimit` call purges, for every caller other than the
requester, exactly the entries whose last visit is more than one
minute old — a window fixed at `time.Minute` independent of the
configured minimum interval — and a requester whose recorded last
visit is more than one minute old is purged before the check and
hence always admitted, even when the configured minimum interval
exceeds one minute. -/
theorem rateLimit_purge_window (v : Visitors) (minI now : Int) (ip : String) :
    (∀ q, q ≠ ip → (rateLimit v minI now ip).2 q = purgeVisitors v now q) ∧
    (∀ q t, v q = some t → now - t > minuteNs → purgeVisitors v now q = none) ∧
    (∀ t, v ip = some t → now - t > minuteNs → (rateLimit v minI now ip).1 = true) := by
  have hpurge : ∀ q t, v q = some t → now - t > minuteNs → purgeVisitors v now q = none := by
    intro q t hq hold
    simp [purgeVisitors, hq, hold]
  refine ⟨?_, hpurge, ?_⟩
  · intro q hq
    unfold rateLimit
    cases hv : purgeVisitors v now ip with
    | none => simp [hv, visitorInsert, hq]
    | some t =>
      simp only [hv]
      split_ifs with hlt
      · rfl
      · simp [visitorInsert, hq]
  · intro t hip hold
    have hnone := hpurge ip t hip hold
    unfold rateLimit
    simp only [hnone]

theorem rateLimit_purge_window_witness :
    ((fun q => if q = "10.0.0.1" then some 0 else none) : Visitors) "10.0.0.1" = some 0 ∧
    (minuteNs + 1) - 0 > minuteNs ∧
    (rateLimit (fun q => if q = "10.0.0.1" then some 0 else none)
        (2 * minuteNs) (minuteNs + 1) "10.0.0.1").1 = true :=
  ⟨by decide, by decide,
    (rateLimit_purge_window (fun q => if q = "10.0.0.1" then some 0 else none)
        (2 * minuteNs) (minuteNs + 1) "10.0.0.1").2.2 0 (by decide) (by decide)⟩

/-! ### Empty request path (claim C10) -/

/-- C10 counterexample: a rate-limited request with an empty URL path
does not panic — `handleRequest` returns the "too many requests"
response before the slice `r.URL.Path[1:]` is evaluated. -/
theorem handleRequest_empty_path_no_panic_cex :
    (handleRequest ⟨emptyCache, fun q => if q = "9.9.9.9" then some 100 else none, 50⟩
        100 "9.9.9.9" "").isSome = true ∧
    Option.map Prod.fst
        (handleRequest ⟨emptyCache, fun q => if q = "9.9.9.9" then some 100 else none, 50⟩
          100 "9.9.9.9" "")
      = some Response.tooManyRequests := by
  refine ⟨by decide, by decide⟩

/-- C10 amended: `handleRequest` computes its cache key as
`r.URL.Path[1:]` with no emptiness check, so every request that the
rate limiter admits and whose URL path is empty hits an out-of-range
slice and panics; requests with a non-empty path always return a
response.  (A rejected request returns "too many requests" before the
slice and does not panic.) -/
theorem handleRequest_empty_path_panics (s : serverState) (now : Int) (ip : String)
    (hallow : (rateLimit s.visitors s.minRequestInterval now ip).1 = true) :
    handleRequest s now ip "" = none ∧
    ∀ urlPath : String, 1 ≤ urlPath.length → (handleRequest s now ip urlPath).isSome = true := by
  constructor
  · simp [handleRequest, hallow]
  · intro urlPath hlen
    unfold handleRequest
    by_cases hrl : (rateLimit s.visitors s.minRequestInterval now ip).1 = false
    · simp [hrl]
    · simp only [hrl, if_false, if_neg (by omega : ¬urlPath.length < 1)]
      cases s.cache (urlPath.drop 1) <;> simp

theorem handleRequest_empty_path_panics_witness :
    (rateLimit (fun _ => none) 5 100 "8.8.8.8").1 = true ∧
    (handleRequest ⟨emptyCache, fun _ => none, 5⟩ 100 "8.8.8.8" "" = none ∧
      ∀ urlPath : String, 1 ≤ urlPath.length →
        (handleRequest ⟨emptyCache, fun _ => none, 5⟩ 100 "8.8.8.8" urlPath).isSome = true) :=
  ⟨by decide, handleRequest_empty_path_panics ⟨emptyCache, fun _ => none, 5⟩ 100 "8.8.8.8"
    (by decide)⟩

/-! ### Startup and refresh lifecycle (claim C8) -/

/-- C8 counterexample: a refresh whose walk fails after upserting a
changed file leaves that fresh entry in the cache — serving continues,
but not from the cache's last good (pre-scan) state. -/
theorem refresh_error_not_last_good_cex :
    (loadFiles [WalkEvent.file "idx" 2 (Except.ok [9]), WalkEvent.error "io2"]
        (cacheInsert emptyCache "idx" ⟨[1], 1⟩)).err = some "io2" ∧
    refreshStep [WalkEvent.file "idx" 2 (Except.ok [9]), WalkEvent.error "io2"]
        (cacheInsert emptyCache "idx" ⟨[1], 1⟩) "idx" = some ⟨[9], 2⟩ ∧
    cacheInsert emptyCache "idx" ⟨[1], 1⟩ "idx" = some ⟨[1], 1⟩ := by
  refine ⟨by decide, by decide, by decide⟩

/-- C8 amended: a failing initial synchronous load is fatal — startup
surfaces the scan error and yields no serving state (the process
exits non-zero before binding a listener); a failing periodic refresh
is non-fatal — serving continues with a defined cache in which every
key still holds its pre-scan entry or an entry freshly read from disk
by the failed scan (no deletions are applied, though upserts done
before the error remain, so the cache need not equal its pre-scan
state), and the refresh loop proceeds to the next scheduled scan with
no immediate retry. -/
theorem startup_fatal_refresh_nonfatal :
    (∀ ev e, runStartup ev = Except.error e ↔ (loadFiles ev emptyCache).err = some e) ∧
    (∀ ev c, (loadFiles ev c).err.isSome = true →
      ∀ p, refreshStep ev c p = c p ∨
        ∃ mt content, WalkEvent.file p mt (Except.ok content) ∈ ev ∧
          refreshStep ev c p = some ⟨content, mt⟩) ∧
    (∀ ev scans c, refreshLoop (ev :: scans) c = refreshLoop scans (refreshStep ev c)) := by
  refine ⟨?_, ?_, ?_⟩
  · intro ev e
    unfold runStartup
    cases h : (loadFiles ev emptyCache).err with
    | none => simp [h]
    | some m => simp [h]
  · intro ev c hsome p
    rw [loadFiles_err] at hsome
    obtain ⟨m, hm⟩ := Option.isSome_iff_exists.mp hsome
    unfold refreshStep
    rw [loadFiles_cache_of_err ev c m hm p]
    exact walkFiles_cache_pre_or_fresh ev c p
  · intro ev scans c
    rfl

theorem startup_fatal_refresh_nonfatal_witness :
    (loadFiles [WalkEvent.error "boom"] emptyCache).err.isSome = true ∧
    ∀ p, refreshStep [WalkEvent.error "boom"] emptyCache p = emptyCache p ∨
      ∃ mt content, WalkEvent.file p mt (Except.ok content) ∈ [WalkEvent.error "boom"] ∧
        refreshStep [WalkEvent.error "boom"] emptyCache p = some ⟨content, mt⟩ :=
  ⟨by decide, startup_fatal_refresh_nonfatal.2.1 [WalkEvent.error "boom"] emptyCache (by decide)⟩

end FastServe
